import Mathlib

/-!
Shallow embedding of `scan_for_syncthing_conflicts.py`: the conflict-file
pattern matcher, path canonicalization, the sibship registry maintained by
`ConflictFileListbox.update`, the tick-rate watcher, and the directory
walker `scan_for_conflictfiles`.  Paths and filenames are modelled as
`List Char`; the filesystem (`os.path.exists`) and the wall clock
(`time.time`) are abstract parameters.
-/

set_option autoImplicit false

/-- A filesystem path or filename, as a list of characters
(mirroring Python `str` for the string operations the code uses). -/
abbrev FPath := List Char

/-- Index of the first occurrence of `needle` in `hay`, mirroring Python
`str.find` (which returns `-1`, modelled as `none`, when absent). -/
def findFrom (needle : FPath) : FPath → Option Nat
  | [] => if needle = [] then some 0 else none
  | c :: rest =>
      if needle.isPrefixOf (c :: rest) then some 0
      else (findFrom needle rest).map (· + 1)

/-- The literal marker substring `".sync-conflict-"` from `normalize_path`. -/
def conflict_indicator : FPath := ".sync-conflict-".data

/-- `conflict_length = len(".sync-conflict-") + len("NNNNNNNN-NNNNNN-XXXXXXX")`
from `normalize_path` (source line 100): the full fixed width excised. -/
def conflict_length : Nat := conflict_indicator.length + "NNNNNNNN-NNNNNN-XXXXXXX".data.length

/-- `normalize_path` (source lines 89-106): find the first occurrence of
`".sync-conflict-"`; if absent return the path unchanged; otherwise splice
out exactly `conflict_length` characters starting at the occurrence
(Python slicing clamps at the end of the string, as do `take`/`drop`). -/
def normalize_path (path : FPath) : FPath :=
  match findFrom conflict_indicator path with
  | none => path
  | some conflict_index =>
      path.take conflict_index ++ path.drop (conflict_index + conflict_length)

/-- `re.match(r".*sync-conflict-[0-9A-Z-]*", filename)` succeeds iff
`"sync-conflict-"` occurs starting before the first newline (`.` does not
match a newline; `.*` matches any newline-free prefix and
`[0-9A-Z-]*` may match the empty string). Since the token itself has no
newline, an occurrence lies entirely in the maximal newline-free superstring
of position 0, i.e. in `takeWhile (· ≠ chr 10)`. -/
def conflictRegexMatches (filename : FPath) : Bool :=
  (findFrom "sync-conflict-".data (filename.takeWhile (· ≠ Char.ofNat 10))).isSome

/-- `looks_like_conflictfile` (source lines 21-32): the regex must match and
the name must not be one of syncthing's own bookkeeping files, i.e. not
(startswith `".syncthing"` and endswith `".tmp"`). -/
def looks_like_conflictfile (filename : FPath) : Bool :=
  conflictRegexMatches filename &&
    !(".syncthing".data.isPrefixOf filename && ".tmp".data.isSuffixOf filename)

/-- A `Sibship` (source lines 109-131): the ordered member paths discovered
so far and the canonical (normalized) path they share. -/
structure Sibship where
  paths : List FPath
  normalized : FPath
  deriving DecidableEq, Repr

/-- `Sibship.__init__` (source lines 111-113). -/
def Sibship.init (path : FPath) : Sibship :=
  { paths := [path], normalized := normalize_path path }

/-- `Sibship.maybe_add` (source lines 115-121): append `path` when its
normalized form matches; returns the updated sibship and whether it was
added (the attached callback firing is modelled at the registry level). -/
def Sibship.maybe_add (s : Sibship) (path : FPath) : Sibship × Bool :=
  if normalize_path path = s.normalized then
    ({ s with paths := s.paths ++ [path] }, true)
  else (s, false)

/-- `Sibship.get_paths_to_compare` (source lines 123-127): the member paths,
with the normalized path prepended when not already a member. -/
def Sibship.get_paths_to_compare (s : Sibship) : List FPath :=
  if s.normalized ∈ s.paths then s.paths else s.normalized :: s.paths

/-- `Sibship.n_extant` (source lines 129-131): how many of the paths to
compare currently exist; `os.path.exists` is the abstract parameter `fs`. -/
def Sibship.n_extant (fs : FPath → Bool) (s : Sibship) : Nat :=
  (s.get_paths_to_compare.filter fs).length

/-- `ConflictFileListbox._mangle` (source lines 345-350): the display alias
under which the canonical path itself is announced, `path + " (base path)"`. -/
def mangle (path : FPath) : FPath := path ++ " (base path)".data

/-- The first-match loop of `ConflictFileListbox.update` (source lines
397-401): try `maybe_add` on each sibship in order; `some` returns the list
with the first accepting sibship updated, `none` means no sibship accepted. -/
def tryAdd (path : FPath) : List Sibship → Option (List Sibship)
  | [] => none
  | s :: rest =>
      if (s.maybe_add path).2 then some ((s.maybe_add path).1 :: rest)
      else (tryAdd path rest).map (fun r => s :: r)

/-- One ingestion step of `ConflictFileListbox.update` (source lines
392-445): a freshly dequeued conflict path is offered to the existing
sibships in order (the accepting sibship fires its callback with the path);
if none accepts, a new `Sibship` is appended and, when the normalized path
exists on disk, the callback first fires for the mangled canonical path and
then for the new path.  Returns the new sibship list and the sequence of
callback (membership-change) notifications, each carrying the path passed
to the callback. -/
def ingest (fs : FPath → Bool) (sibs : List Sibship) (path : FPath) :
    List Sibship × List FPath :=
  match tryAdd path sibs with
  | some sibs2 => (sibs2, [path])
  | none =>
      let s := Sibship.init path
      let txt := s.normalized
      (sibs ++ [s], (if fs txt then [mangle txt] else []) ++ [path])

/-- The member-removal step of `ConflictFileListbox.delete_selected_file`
(source lines 262-263): `if path in sibship.paths: sibship.paths.remove(path)`;
Python `list.remove` deletes the first occurrence, i.e. `List.erase`.
Sending the file to trash is the action layer's `send2trash` call, modelled
as an external change to the filesystem parameter. -/
def remove_member (s : Sibship) (path : FPath) : Sibship :=
  if path ∈ s.paths then { s with paths := s.paths.erase path } else s

/-- State of `TicksPerSecondWatcher` (source lines 35-64).  Wall-clock
instants are rationals; `smoothing_factor` is the `deque` bound. -/
structure TicksPerSecondWatcher where
  smoothing_factor : Nat
  ticks : Nat
  last_time : ℚ
  last_ticks : Nat
  ticks_per_second : ℚ
  smoothing_history : List ℚ

/-- Appending to a `collections.deque(maxlen=k)`: the oldest (leftmost)
entries are evicted once the length exceeds `k`. -/
def dequePush (k : Nat) (l : List ℚ) (x : ℚ) : List ℚ :=
  let l2 := l ++ [x]
  if k < l2.length then l2.drop (l2.length - k) else l2

/-- `TicksPerSecondWatcher.__call__` (source lines 45-64), with the value of
`time.time()` passed in as `new_time`: increment `ticks`; if the elapsed
time is zero return the stored rate with nothing else changed; otherwise
push the instantaneous rate into the history and return (and store) the
window average. -/
def TicksPerSecondWatcher.call (w : TicksPerSecondWatcher) (new_time : ℚ) :
    TicksPerSecondWatcher × ℚ :=
  let w1 := { w with ticks := w.ticks + 1 }
  let time_since_last := new_time - w1.last_time
  if time_since_last = 0 then (w1, w1.ticks_per_second)
  else
    let ticks_since_last : ℚ := (w1.ticks : ℚ) - (w1.last_ticks : ℚ)
    let this_tps := ticks_since_last / time_since_last
    let hist := dequePush w1.smoothing_factor w1.smoothing_history this_tps
    let rate := hist.sum / (hist.length : ℚ)
    ({ w1 with ticks_per_second := rate, last_time := new_time,
               last_ticks := w1.ticks, smoothing_history := hist }, rate)

/-- A progress report `dict(tps=..., n_scanned=..., n_todo=..., root=...)`
placed on the status queue by `scan_for_conflictfiles`. -/
structure ProgressSnapshot where
  tps : ℚ
  n_scanned : Nat
  n_todo : Nat
  root : Option FPath
  deriving DecidableEq, Repr

/-- A directory tree for `os.walk`: the directory's path, its plain files,
whether `listdir` succeeds on it, and its subdirectories. -/
inductive DirTree where
  | node (root : FPath) (files : List FPath) (readable : Bool) (subdirs : List DirTree)

mutual

/-- `os.walk` with the default `onerror=None`, top-down: a readable
directory yields its `(root, files)` triple and then its subtrees; a
directory whose listing fails is skipped silently together with its
(unknowable) subtree, and the walk continues. -/
def DirTree.walk : DirTree → List (FPath × List FPath)
  | .node root files readable subdirs =>
      if readable then (root, files) :: walkForest subdirs else []

/-- The concatenated walks of a list of sibling subtrees. -/
def walkForest : List DirTree → List (FPath × List FPath)
  | [] => []
  | t :: ts => t.walk ++ walkForest ts

end

/-- `os.path.join(root, fp)` for POSIX paths as the walker uses it. -/
def os_path_join (root fp : FPath) : FPath :=
  if "/".data.isPrefixOf fp then fp
  else if root = [] ∨ "/".data.isSuffixOf root then root ++ fp
  else root ++ "/".data ++ fp

/-- `report_frequency = 10.0` (source line 69). -/
def report_frequency : ℚ := 10

/-- The walker's loop state: the index of the next `time.time()` call on
the abstract clock, the rate watcher, the throttling timestamp, the scanned
counter, and the two output streams accumulated in emission order. -/
structure ScanState where
  clockIdx : Nat
  get_tps : TicksPerSecondWatcher
  last_report : ℚ
  n_scanned : Nat
  conflicts : List FPath
  statuses : List ProgressSnapshot

/-- The body of the inner `for i, fp in enumerate(files)` loop of
`scan_for_conflictfiles` (source lines 74-83): count the entry, tick the
rate watcher, emit a throttled progress report for the current directory
(`n_todo = len(files) - i`; the `tps is not None` guard is vacuous since
the watcher always returns a number), and emit the joined path when the
name looks like a conflict file. -/
def scanFile (clock : Nat → ℚ) (root : FPath) (n_files i : Nat) (fp : FPath)
    (st : ScanState) : ScanState :=
  let st1 := { st with n_scanned := st.n_scanned + 1 }
  let wr := st1.get_tps.call (clock st1.clockIdx)
  let st2 := { st1 with clockIdx := st1.clockIdx + 1, get_tps := wr.1 }
  let tps := wr.2
  let current_time := clock st2.clockIdx
  let st3 := { st2 with clockIdx := st2.clockIdx + 1 }
  let st4 :=
    if 1 / report_frequency < current_time - st3.last_report then
      { st3 with last_report := current_time,
                 statuses := st3.statuses ++
                   [{ tps := tps, n_scanned := st3.n_scanned,
                      n_todo := n_files - i, root := some root }] }
    else st3
  if looks_like_conflictfile fp then
    { st4 with conflicts := st4.conflicts ++ [os_path_join root fp] }
  else st4

/-- The inner loop over one directory's files, `i` being the enumeration
index. -/
def scanFiles (clock : Nat → ℚ) (root : FPath) (n_files : Nat) :
    Nat → List FPath → ScanState → ScanState
  | _, [], st => st
  | i, fp :: rest, st =>
      scanFiles clock root n_files (i + 1) rest (scanFile clock root n_files i fp st)

/-- The outer loop over the `os.walk` triples. -/
def scanDirs (clock : Nat → ℚ) : List (FPath × List FPath) → ScanState → ScanState
  | [], st => st
  | (root, files) :: rest, st =>
      scanDirs clock rest (scanFiles clock root files.length 0 files st)

/-- `scan_for_conflictfiles` (source lines 67-86) over an abstract
filesystem tree and clock: `last_report = time.time()` is clock call 0,
the watcher's construction reads clock call 1, then the walk runs, and one
final status `dict(tps=0, n_scanned=n_scanned, n_todo=0, root=None)` is
always appended.  The queues are modelled as the returned lists, in `put`
order. -/
def scan_for_conflictfiles (clock : Nat → ℚ) (tree : DirTree) :
    List FPath × List ProgressSnapshot :=
  let w : TicksPerSecondWatcher :=
    { smoothing_factor := 10, ticks := 0, last_time := clock 1,
      last_ticks := 0, ticks_per_second := 0, smoothing_history := [] }
  let st0 : ScanState :=
    { clockIdx := 2, get_tps := w, last_report := clock 0, n_scanned := 0,
      conflicts := [], statuses := [] }
  let stF := scanDirs clock tree.walk st0
  (stF.conflicts,
   stF.statuses ++ [{ tps := 0, n_scanned := stF.n_scanned, n_todo := 0, root := none }])

/-! ### Helper lemmas about `findFrom` and `normalize_path` -/

theorem findFrom_isSome_iff (needle hay : FPath) :
    (findFrom needle hay).isSome ↔ needle <:+: hay := by
  induction hay with
  | nil =>
      by_cases h : needle = ([] : FPath)
      · subst h; simp [findFrom]
      · simp [findFrom, h, List.infix_nil]
  | cons c rest ih =>
      by_cases h : needle.isPrefixOf (c :: rest)
      · simp only [findFrom, h, if_pos, Option.isSome_some, true_iff]
        exact (List.isPrefixOf_iff_prefix.mp h).isInfix
      · simp only [findFrom, h, if_neg, Bool.false_eq_true, not_false_iff,
          List.infix_cons_iff]
        rw [show ((findFrom needle rest).map (· + 1)) = ((· + 1) <$> findFrom needle rest) from rfl,
          Option.isSome_map]
        rw [ih]
        constructor
        · exact Or.inr
        · rintro (hp | hi)
          · exact absurd (List.isPrefixOf_iff_prefix.mpr hp) h
          · exact hi

theorem findFrom_eq_none_of_no_occurrence {needle hay : FPath} (h : ¬ needle <:+: hay) :
    findFrom needle hay = none := by
  cases heq : findFrom needle hay with
  | none => rfl
  | some i =>
      exact absurd ((findFrom_isSome_iff needle hay).mp (by simp [heq])) h

theorem findFrom_bound {needle hay : FPath} {i : Nat}
    (h : findFrom needle hay = some i) : i + needle.length ≤ hay.length := by
  induction hay generalizing i with
  | nil =>
      by_cases hn : needle = ([] : FPath)
      · subst hn; simp [findFrom] at h; omega
      · simp [findFrom, hn] at h
  | cons c rest ih =>
      by_cases hp : needle.isPrefixOf (c :: rest)
      · simp only [findFrom, hp, if_pos] at h
        cases h
        simpa using (List.isPrefixOf_iff_prefix.mp hp).length_le
      · simp only [findFrom, hp, if_neg, Bool.false_eq_true, not_false_iff,
          Option.map_eq_some'] at h
        obtain ⟨j, hj, rfl⟩ := h
        have := ih hj
        simp only [List.length_cons]
        omega

theorem normalize_path_of_findFrom_none {p : FPath}
    (h : findFrom conflict_indicator p = none) : normalize_path p = p := by
  unfold normalize_path
  rw [h]

theorem normalize_path_no_marker {p : FPath} (h : ¬ conflict_indicator <:+: p) :
    normalize_path p = p :=
  normalize_path_of_findFrom_none (findFrom_eq_none_of_no_occurrence h)

theorem normalize_path_length_le {p : FPath} {i : Nat}
    (h : findFrom conflict_indicator p = some i) :
    (normalize_path p).length + conflict_indicator.length ≤ p.length := by
  have hb := findFrom_bound h
  have h15 : conflict_indicator.length = 15 := by decide
  have hcl : conflict_length = 38 := by decide
  rw [h15] at hb
  unfold normalize_path
  rw [h]
  simp only [List.length_append, List.length_take, List.length_drop]
  rw [h15, hcl]
  have hmin : i ⊓ p.length = i := min_eq_left (by omega)
  rw [hmin]
  omega

/-- The mangled display alias of a path's normalized form is never the path
itself: mangling adds 12 characters, while normalization either preserves
the length (no marker) or shrinks it by at least the marker's width. -/
theorem mangle_normalize_ne (p : FPath) : mangle (normalize_path p) ≠ p := by
  intro heq
  have hlen := congrArg List.length heq
  simp only [mangle, List.length_append] at hlen
  cases hfind : findFrom conflict_indicator p with
  | none =>
      rw [normalize_path_of_findFrom_none hfind] at hlen
      simp at hlen
  | some i =>
      have hle := normalize_path_length_le hfind
      have h15 : conflict_indicator.length = 15 := by decide
      rw [h15] at hle
      have h12 : (" (base path)".data : FPath).length = 12 := by decide
      rw [h12] at hlen
      omega

/-! ### Helper lemmas about the sibship registry -/

theorem maybe_add_of_eq {s : Sibship} {p : FPath} (h : normalize_path p = s.normalized) :
    s.maybe_add p = ({ s with paths := s.paths ++ [p] }, true) := by
  unfold Sibship.maybe_add
  rw [if_pos h]

theorem maybe_add_of_ne {s : Sibship} {p : FPath} (h : normalize_path p ≠ s.normalized) :
    s.maybe_add p = (s, false) := by
  unfold Sibship.maybe_add
  rw [if_neg h]

theorem tryAdd_eq_none_iff (p : FPath) (sibs : List Sibship) :
    tryAdd p sibs = none ↔ ∀ s ∈ sibs, normalize_path p ≠ s.normalized := by
  induction sibs with
  | nil => simp [tryAdd]
  | cons s rest ih =>
      by_cases h : normalize_path p = s.normalized
      · simp [tryAdd, maybe_add_of_eq h, h]
      · simp [tryAdd, maybe_add_of_ne h, h, ih]

theorem tryAdd_append (p : FPath) (l1 l2 : List Sibship) :
    tryAdd p (l1 ++ l2) =
      match tryAdd p l1 with
      | some r => some (r ++ l2)
      | none => (tryAdd p l2).map (fun r => l1 ++ r) := by
  induction l1 with
  | nil =>
      simp only [tryAdd, List.nil_append]
      cases tryAdd p l2 <;> simp
  | cons s rest ih =>
      by_cases h : normalize_path p = s.normalized
      · simp [tryAdd, maybe_add_of_eq h]
      · cases hr : tryAdd p rest <;> cases hl : tryAdd p l2 <;>
          simp [tryAdd, maybe_add_of_ne h, ih, hr, hl]

theorem tryAdd_some_decomp {p : FPath} {sibs sibs' : List Sibship}
    (h : tryAdd p sibs = some sibs') :
    ∃ l1 s l2, sibs = l1 ++ s :: l2 ∧ tryAdd p l1 = none ∧
      normalize_path p = s.normalized ∧
      sibs' = l1 ++ { s with paths := s.paths ++ [p] } :: l2 := by
  induction sibs generalizing sibs' with
  | nil => simp [tryAdd] at h
  | cons s rest ih =>
      by_cases hc : normalize_path p = s.normalized
      · refine ⟨[], s, rest, rfl, by simp [tryAdd], hc, ?_⟩
        simp only [tryAdd, maybe_add_of_eq hc, if_pos] at h
        simp only [List.nil_append]
        exact (Option.some_inj.mp h).symm
      · have hstep : tryAdd p (s :: rest) = (tryAdd p rest).map (fun r => s :: r) := by
          simp [tryAdd, maybe_add_of_ne hc]
        rw [hstep, Option.map_eq_some'] at h
        obtain ⟨r, hr, rfl⟩ := h
        obtain ⟨l1, t, l2, hdec, hnone, hnorm, hres⟩ := ih hr
        refine ⟨s :: l1, t, l2, by simp [hdec], ?_, hnorm, by simp [hres]⟩
        simp [tryAdd, maybe_add_of_ne hc, hnone]

theorem ingest_of_tryAdd_some {fs : FPath → Bool} {sibs sibs2 : List Sibship} {p : FPath}
    (h : tryAdd p sibs = some sibs2) : ingest fs sibs p = (sibs2, [p]) := by
  unfold ingest
  rw [h]

theorem ingest_of_tryAdd_none {fs : FPath → Bool} {sibs : List Sibship} {p : FPath}
    (h : tryAdd p sibs = none) :
    ingest fs sibs p = (sibs ++ [Sibship.init p],
      (if fs (normalize_path p) then [mangle (normalize_path p)] else []) ++ [p]) := by
  unfold ingest
  rw [h]
  rfl

/-! ### Helper lemmas for member removal and extant counting -/

theorem filter_deleted_of_not_mem {p : FPath} {fs : FPath → Bool} {l : List FPath}
    (h : p ∉ l) :
    l.filter (fun q => if q = p then false else fs q) = l.filter fs := by
  induction l with
  | nil => rfl
  | cons q t ih =>
      have hq : q ≠ p := fun heq => h (heq ▸ List.mem_cons_self q t)
      have ht : p ∉ t := fun hm => h (List.mem_cons_of_mem q hm)
      simp only [List.filter_cons, if_neg hq, ih ht]

theorem filter_erase_deleted {p : FPath} {fs : FPath → Bool} {l : List FPath}
    (hcount : l.count p = 1) (hfs : fs p = true) :
    ((l.erase p).filter (fun q => if q = p then false else fs q)).length + 1 =
      (l.filter fs).length := by
  induction l with
  | nil => simp at hcount
  | cons q t ih =>
      by_cases hq : q = p
      · subst hq
        have ht0 : t.count q = 0 := by
          simp [List.count_cons] at hcount
          exact hcount
        have htnm : q ∉ t := List.count_eq_zero.mp ht0
        rw [List.erase_cons_head, filter_deleted_of_not_mem htnm,
          List.filter_cons, if_pos hfs]
        simp
      · have hqb : ¬(q == p) = true := by simpa using hq
        have hct : t.count p = 1 := by
          simpa [List.count_cons, hq] using hcount
        rw [List.erase_cons_tail hqb, List.filter_cons, List.filter_cons]
        by_cases hfq : fs q = true
        · rw [if_pos (by simpa [hq] using hfq), if_pos hfq]
          simpa using ih hct
        · rw [if_neg (by simpa [hq] using hfq), if_neg hfq]
          exact ih hct

theorem n_extant_after_removal {fs : FPath → Bool} {s : Sibship} {p : FPath}
    (hcount : s.paths.count p = 1) (hfs : fs p = true) :
    (remove_member s p).n_extant (fun q => if q = p then false else fs q) + 1 =
      s.n_extant fs := by
  have hmem : p ∈ s.paths := List.count_pos_iff.mp (by omega)
  unfold remove_member
  rw [if_pos hmem]
  unfold Sibship.n_extant Sibship.get_paths_to_compare
  by_cases hn : s.normalized ∈ s.paths
  · rw [if_pos hn]
    by_cases hnp : s.normalized = p
    · have hne : s.normalized ∉ s.paths.erase p := by
        rw [hnp]
        intro hmm
        have := List.count_erase_self p s.paths
        rw [hcount] at this
        exact absurd (List.count_pos_iff.mpr hmm) (by omega)
      simp only [if_neg hne]
      rw [List.filter_cons, if_neg (by simp [hnp])]
      exact filter_erase_deleted hcount hfs
    · have hstill : s.normalized ∈ s.paths.erase p :=
        (List.mem_erase_of_ne hnp).mpr hn
      simp only [if_pos hstill]
      exact filter_erase_deleted hcount hfs
  · rw [if_neg hn]
    have hnp : s.normalized ≠ p := fun heq => hn (heq ▸ hmem)
    have hne : s.normalized ∉ s.paths.erase p :=
      fun hmm => hn (List.mem_of_mem_erase hmm)
    simp only [if_neg hne]
    rw [List.filter_cons, List.filter_cons, if_neg hnp]
    by_cases hfn : fs s.normalized = true
    · rw [if_pos hfn, if_pos hfn]
      simpa using filter_erase_deleted hcount hfs
    · rw [if_neg hfn, if_neg hfn]
      exact filter_erase_deleted hcount hfs

/-! ### Helper lemmas for the directory walker's progress stream -/

theorem scanFile_statuses_decomp (clock : Nat → ℚ) (root : FPath) (n_files i : Nat)
    (fp : FPath) (st : ScanState) :
    ∃ tail, (scanFile clock root n_files i fp st).statuses = st.statuses ++ tail ∧
      ∀ s ∈ tail, s.root = some root := by
  unfold scanFile
  dsimp only
  split <;> split <;>
    first
      | exact ⟨[], (List.append_nil _).symm, by simp⟩
      | exact ⟨_, rfl, by rintro s hs; simp at hs; simp [hs]⟩

theorem scanFiles_statuses_decomp (clock : Nat → ℚ) (root : FPath) (n_files : Nat)
    (files : List FPath) :
    ∀ (i : Nat) (st : ScanState),
      ∃ tail, (scanFiles clock root n_files i files st).statuses = st.statuses ++ tail ∧
        ∀ s ∈ tail, s.root = some root := by
  induction files with
  | nil => exact fun i st => ⟨[], (List.append_nil _).symm, by simp⟩
  | cons fp rest ih =>
      intro i st
      obtain ⟨t1, h1, hr1⟩ := scanFile_statuses_decomp clock root n_files i fp st
      obtain ⟨t2, h2, hr2⟩ := ih (i + 1) (scanFile clock root n_files i fp st)
      refine ⟨t1 ++ t2, ?_, ?_⟩
      · rw [scanFiles, h2, h1, List.append_assoc]
      · intro s hs
        rcases List.mem_append.mp hs with h | h
        · exact hr1 s h
        · exact hr2 s h

theorem scanDirs_statuses_decomp (clock : Nat → ℚ) (dirs : List (FPath × List FPath)) :
    ∀ st : ScanState,
      ∃ tail, (scanDirs clock dirs st).statuses = st.statuses ++ tail ∧
        ∀ s ∈ tail, s.root ≠ none := by
  induction dirs with
  | nil => exact fun st => ⟨[], (List.append_nil _).symm, by simp⟩
  | cons d rest ih =>
      intro st
      obtain ⟨t1, h1, hr1⟩ := scanFiles_statuses_decomp clock d.1 d.2.length d.2 0 st
      obtain ⟨t2, h2, hr2⟩ := ih (scanFiles clock d.1 d.2.length 0 d.2 st)
      refine ⟨t1 ++ t2, ?_, ?_⟩
      · rw [scanDirs, h2, h1, List.append_assoc]
      · intro s hs
        rcases List.mem_append.mp hs with h | h
        · rw [hr1 s h]
          simp
        · exact hr2 s h

/-! ### Claim theorems: pattern matcher and canonicalization -/

/-- C8: for every path `p` that does not contain the conflict-marker
substring `".sync-conflict-"`, `normalize_path p = p`. -/
theorem c8_no_marker_unchanged (p : FPath) (h : ¬ conflict_indicator <:+: p) :
    normalize_path p = p :=
  normalize_path_no_marker h

theorem c8_no_marker_unchanged_witness :
    normalize_path "hello.txt".data = "hello.txt".data :=
  c8_no_marker_unchanged "hello.txt".data (by decide)

/-- C2, counterexample: `"a.sync-conflict-"` contains the literal marker
`".sync-conflict-"` at index 1 with no payload characters following (fewer
than the fixed width remains), yet `normalize_path` does not return the
input unchanged: it returns the truncated string `"a"`. -/
theorem c2_counterexample :
    normalize_path "a.sync-conflict-".data = "a".data ∧
      normalize_path "a.sync-conflict-".data ≠ "a.sync-conflict-".data := by
  constructor
  · decide
  · decide

/-- C2, amended: when the marker occurs at index `i` but fewer than the
fixed payload width of characters remain (`p.length < i + conflict_length`),
`normalize_path` does not fail and does not return the input unchanged: it
excises everything from the marker onward, returning `p.take i`. -/
theorem c2_truncated_marker (p : FPath) (i : Nat)
    (h1 : findFrom conflict_indicator p = some i)
    (h2 : p.length < i + conflict_length) :
    normalize_path p = p.take i := by
  unfold normalize_path
  rw [h1]
  show p.take i ++ p.drop (i + conflict_length) = p.take i
  have hnil : p.drop (i + conflict_length) = [] :=
    List.drop_eq_nil_of_le (by omega)
  rw [hnil, List.append_nil]

theorem c2_truncated_marker_witness :
    normalize_path "a.sync-conflict-".data = "a.sync-conflict-".data.take 1 :=
  c2_truncated_marker "a.sync-conflict-".data 1 (by decide) (by decide)

/-- C3, counterexample: the 53-character path below contains the marker, but
`normalize_path` applied twice differs from `normalize_path` applied once:
one application excises the first 38 characters, leaving exactly
`".sync-conflict-"`, and a second application excises that too. -/
theorem c3_counterexample :
    (findFrom conflict_indicator
        ".sync-conflict-AAAAAAAAAAAAAAAAAAAAAAA.sync-conflict-".data).isSome = true ∧
    normalize_path (normalize_path
        ".sync-conflict-AAAAAAAAAAAAAAAAAAAAAAA.sync-conflict-".data) ≠
      normalize_path ".sync-conflict-AAAAAAAAAAAAAAAAAAAAAAA.sync-conflict-".data := by
  constructor
  · decide
  · decide

/-- C3, amended: for a path `p` with a marker, `normalize_path` is
idempotent provided its result no longer contains the marker substring
(which can fail when the path holds several markers or the splice recreates
one). -/
theorem c3_idempotent_when_result_markerfree (p : FPath)
    (h1 : (findFrom conflict_indicator p).isSome = true)
    (h2 : ¬ conflict_indicator <:+: normalize_path p) :
    normalize_path (normalize_path p) = normalize_path p :=
  normalize_path_no_marker h2

theorem c3_idempotent_when_result_markerfree_witness :
    normalize_path (normalize_path "a.sync-conflict-20230723-000249-ONMECE6.txt".data) =
      normalize_path "a.sync-conflict-20230723-000249-ONMECE6.txt".data :=
  c3_idempotent_when_result_markerfree "a.sync-conflict-20230723-000249-ONMECE6.txt".data
    (by decide) (by decide)

/-- C7, counterexample: `"a.sync-conflict-.syncthing.tmp"` ends with the
bookkeeping suffix `".syncthing.tmp"` and matches the conflict-marker
shape, yet `looks_like_conflictfile` returns `true`, because the code's
exclusion also requires the name to begin with `".syncthing"`. -/
theorem c7_counterexample :
    looks_like_conflictfile "a.sync-conflict-.syncthing.tmp".data = true ∧
      ".syncthing.tmp".data.isSuffixOf "a.sync-conflict-.syncthing.tmp".data = true := by
  constructor
  · decide
  · decide

/-- C7, amended: every filename that begins with `".syncthing"` and ends
with `".tmp"` is rejected by `looks_like_conflictfile`, even when it
matches the conflict-marker shape. -/
theorem c7_reserved_names_rejected (s : FPath)
    (h1 : ".syncthing".data.isPrefixOf s = true)
    (h2 : ".tmp".data.isSuffixOf s = true) :
    looks_like_conflictfile s = false := by
  simp [looks_like_conflictfile, h1, h2]

theorem c7_reserved_names_rejected_witness :
    looks_like_conflictfile ".syncthing.a.sync-conflict-0.tmp".data = false :=
  c7_reserved_names_rejected ".syncthing.a.sync-conflict-0.tmp".data (by decide) (by decide)

/-- C10: the filename `"sync-conflict-"` (no leading dot, empty tag) is
accepted by `looks_like_conflictfile` — so it is emitted on the conflict
stream — while `normalize_path` returns it unchanged, and the `Sibship`
created from it is keyed by the path itself with the path as sole member. -/
theorem c10_matcher_canonicalizer_mismatch :
    looks_like_conflictfile "sync-conflict-".data = true ∧
      normalize_path "sync-conflict-".data = "sync-conflict-".data ∧
      Sibship.init "sync-conflict-".data =
        { paths := ["sync-conflict-".data], normalized := "sync-conflict-".data } := by
  refine ⟨by decide, by decide, ?_⟩
  decide

/-! ### Claim theorem: rate watcher -/

/-- C6: a tick whose elapsed wall time since the previous sample is zero
takes the guard branch — no division is performed — and returns the stored
`ticks_per_second` unchanged; the state keeps its rate, history window,
`last_time` and `last_ticks`, only the total `ticks` count advancing. -/
theorem c6_zero_elapsed_tick (w : TicksPerSecondWatcher) (new_time : ℚ)
    (h : new_time - w.last_time = 0) :
    w.call new_time = ({ w with ticks := w.ticks + 1 }, w.ticks_per_second) := by
  unfold TicksPerSecondWatcher.call
  simp [h]

/-- C4: for every directory tree (unreadable subtrees being skipped by the
walk) and every timing of the clock, the walker's progress stream ends with
exactly one terminal snapshot carrying rate 0, remaining 0 and no
directory — every earlier snapshot names a directory; and the scan of an
empty tree emits no conflict paths and exactly the single terminal
snapshot with examined count 0.  (The walk itself is a total function: it
always completes and cannot raise.) -/
theorem c4_terminal_snapshot (clock : Nat → ℚ) (tree : DirTree) (r : FPath) :
    (∃ pre n, (scan_for_conflictfiles clock tree).2 =
        pre ++ [{ tps := 0, n_scanned := n, n_todo := 0, root := none }] ∧
        ∀ s ∈ pre, s.root ≠ none) ∧
    (scan_for_conflictfiles clock (DirTree.node r [] true [])).1 = [] ∧
    (scan_for_conflictfiles clock (DirTree.node r [] true [])).2 =
      [{ tps := 0, n_scanned := 0, n_todo := 0, root := none }] := by
  refine ⟨?_, ?_, ?_⟩
  · unfold scan_for_conflictfiles
    dsimp only
    set st0 : ScanState :=
      { clockIdx := 2,
        get_tps := { smoothing_factor := 10, ticks := 0, last_time := clock 1,
                     last_ticks := 0, ticks_per_second := 0, smoothing_history := [] },
        last_report := clock 0, n_scanned := 0, conflicts := [], statuses := [] }
      with hst0
    obtain ⟨tail, htail, hroot⟩ := scanDirs_statuses_decomp clock tree.walk st0
    rw [htail]
    refine ⟨tail, (scanDirs clock tree.walk st0).n_scanned, ?_, hroot⟩
    rw [hst0]
    simp
  · simp [scan_for_conflictfiles, DirTree.walk, walkForest, scanDirs, scanFiles]
  · simp [scan_for_conflictfiles, DirTree.walk, walkForest, scanDirs, scanFiles]

/-- C9: in a registry holding several sibships, removing a member path `p`
(present exactly once and extant) from the sibship at index `i` removes it
from that sibship's member sequence, is a no-op on any sibship not holding
the path, leaves every other sibship in the registry unchanged, and — after
the removed variant is deleted externally from the filesystem — the
sibship's live extant count is exactly one less than before.  The removal
itself touches no file: the deletion is the action layer's, modelled as
the external filesystem update `fun q => if q = p then false else fs q`. -/
theorem c9_remove_member_frame (fs : FPath → Bool) (sibs : List Sibship) (i : Nat)
    (p : FPath) (hi : i < sibs.length)
    (hcount : (sibs.get ⟨i, hi⟩).paths.count p = 1) (hfs : fs p = true) :
    p ∉ (remove_member (sibs.get ⟨i, hi⟩) p).paths ∧
    (∀ t : Sibship, ∀ q : FPath, q ∉ t.paths → remove_member t q = t) ∧
    (∀ j, ∀ hj : j < sibs.length, j ≠ i →
      (sibs.set i (remove_member (sibs.get ⟨i, hi⟩) p)).get
          ⟨j, by rw [List.length_set]; exact hj⟩ = sibs.get ⟨j, hj⟩) ∧
    (remove_member (sibs.get ⟨i, hi⟩) p).n_extant
        (fun q => if q = p then false else fs q) + 1 =
      (sibs.get ⟨i, hi⟩).n_extant fs := by
  refine ⟨?_, ?_, ?_, n_extant_after_removal hcount hfs⟩
  · have hmem : p ∈ (sibs.get ⟨i, hi⟩).paths := List.count_pos_iff.mp (by omega)
    unfold remove_member
    rw [if_pos hmem]
    intro hmm
    have := List.count_erase_self p (sibs.get ⟨i, hi⟩).paths
    rw [hcount] at this
    exact absurd (List.count_pos_iff.mpr hmm) (by simp at this ⊢; omega)
  · intro t q hq
    unfold remove_member
    rw [if_neg hq]
  · intro j hj hne
    simp only [List.get_eq_getElem]
    exact List.getElem_set_ne (Ne.symm hne) _

theorem c9_remove_member_frame_witness :
    "a1".data ∉ (remove_member
        { paths := ["a1".data, "a2".data], normalized := "a".data } "a1".data).paths ∧
      (remove_member { paths := ["a1".data, "a2".data], normalized := "a".data }
            "a1".data).n_extant
          (fun q => if q = "a1".data then false else (fun _ => true) q) + 1 =
        Sibship.n_extant (fun _ => true)
          { paths := ["a1".data, "a2".data], normalized := "a".data } := by
  have h := c9_remove_member_frame (fun _ => true)
    [{ paths := ["a1".data, "a2".data], normalized := "a".data },
     { paths := ["b1".data], normalized := "b".data }] 0 "a1".data
    (by norm_num) (by decide) rfl
  exact ⟨h.1, h.2.2.2⟩

/-- C1: two paths with identical canonical forms, ingested one after the
other into any registry state, belong to one common sibship afterwards,
whose member sequence contains `p1` and `p2` in ingestion order
(`[p1, p2]` is a sublist of the member sequence). -/
theorem c1_same_canonical_same_sibship (fs : FPath → Bool) (sibs : List Sibship)
    (p1 p2 : FPath) (h : normalize_path p1 = normalize_path p2) :
    ∃ s ∈ (ingest fs (ingest fs sibs p1).1 p2).1, [p1, p2].Sublist s.paths := by
  cases hc : tryAdd p1 sibs with
  | none =>
      rw [ingest_of_tryAdd_none hc]
      have hnone2 : tryAdd p2 sibs = none := by
        rw [tryAdd_eq_none_iff] at hc ⊢
        intro s hs
        rw [← h]
        exact hc s hs
      have heq : normalize_path p2 = (Sibship.init p1).normalized := h.symm
      have hsingle : tryAdd p2 [Sibship.init p1] =
          some [{ paths := [p1, p2], normalized := normalize_path p1 }] := by
        simp only [tryAdd, maybe_add_of_eq heq]
        rfl
      have htry : tryAdd p2 (sibs ++ [Sibship.init p1]) =
          some (sibs ++ [{ paths := [p1, p2], normalized := normalize_path p1 }]) := by
        rw [tryAdd_append, hnone2, hsingle]
        rfl
      rw [ingest_of_tryAdd_some htry]
      refine ⟨{ paths := [p1, p2], normalized := normalize_path p1 },
        List.mem_append_right _ (List.mem_singleton.mpr rfl), List.Sublist.refl _⟩
  | some sibs1 =>
      obtain ⟨l1, s, l2, hdec, hnone, hnorm, hres⟩ := tryAdd_some_decomp hc
      rw [ingest_of_tryAdd_some hc]
      have hnone2 : tryAdd p2 l1 = none := by
        rw [tryAdd_eq_none_iff] at hnone ⊢
        intro t ht
        rw [← h]
        exact hnone t ht
      have hnorm2 : normalize_path p2 =
          ({ s with paths := s.paths ++ [p1] } : Sibship).normalized := by
        rw [← h]
        exact hnorm
      have hcons : tryAdd p2 ({ s with paths := s.paths ++ [p1] } :: l2) =
          some ({ s with paths := s.paths ++ [p1] ++ [p2] } :: l2) := by
        simp only [tryAdd, maybe_add_of_eq hnorm2]
        rfl
      have htry : tryAdd p2 sibs1 =
          some (l1 ++ { s with paths := s.paths ++ [p1] ++ [p2] } :: l2) := by
        rw [hres, tryAdd_append, hnone2, hcons]
        rfl
      rw [ingest_of_tryAdd_some htry]
      refine ⟨{ s with paths := s.paths ++ [p1] ++ [p2] },
        List.mem_append_right _ (List.mem_cons_self _ _), ?_⟩
      rw [List.append_assoc]
      exact List.sublist_append_right s.paths ([p1] ++ [p2])

theorem c1_same_canonical_same_sibship_witness :
    ∃ s ∈ (ingest (fun _ => false)
        (ingest (fun _ => false) []
          "a.sync-conflict-20230723-000249-ONMECE6.txt".data).1
        "a.sync-conflict-20230724-101112-ABCDE12.txt".data).1,
      ["a.sync-conflict-20230723-000249-ONMECE6.txt".data,
       "a.sync-conflict-20230724-101112-ABCDE12.txt".data].Sublist s.paths :=
  c1_same_canonical_same_sibship (fun _ => false) []
    "a.sync-conflict-20230723-000249-ONMECE6.txt".data
    "a.sync-conflict-20230724-101112-ABCDE12.txt".data (by decide)

/-- C5: every ingested path produces exactly one membership-change
notification carrying that path; and when the ingestion creates a
brand-new sibship whose canonical path exists on the filesystem, the
notification stream is exactly the canonical path's (mangled) notification
followed by the new conflict path's — canonical strictly first. -/
theorem c5_notification_order (fs : FPath → Bool) (sibs : List Sibship) (p : FPath) :
    (ingest fs sibs p).2.count p = 1 ∧
      (tryAdd p sibs = none → fs (normalize_path p) = true →
        (ingest fs sibs p).2 = [mangle (normalize_path p), p]) := by
  constructor
  · cases hc : tryAdd p sibs with
    | some sibs2 =>
        rw [ingest_of_tryAdd_some hc]
        simp
    | none =>
        rw [ingest_of_tryAdd_none hc]
        by_cases hf : fs (normalize_path p) = true
        · have hne : mangle (normalize_path p) ≠ p := mangle_normalize_ne p
          simp [hf, List.count_cons, hne, Ne.symm hne]
        · simp [hf]
  · intro hc hf
    rw [ingest_of_tryAdd_none hc, if_pos hf]
    rfl

theorem c5_notification_order_witness :
    (ingest (fun _ => true) [] "a.sync-conflict-20230723-000249-ONMECE6.txt".data).2 =
        [mangle (normalize_path "a.sync-conflict-20230723-000249-ONMECE6.txt".data),
         "a.sync-conflict-20230723-000249-ONMECE6.txt".data] ∧
      (ingest (fun _ => true) []
          "a.sync-conflict-20230723-000249-ONMECE6.txt".data).2.count
        "a.sync-conflict-20230723-000249-ONMECE6.txt".data = 1 :=
  ⟨(c5_notification_order (fun _ => true) []
      "a.sync-conflict-20230723-000249-ONMECE6.txt".data).2 rfl rfl,
   (c5_notification_order (fun _ => true) []
      "a.sync-conflict-20230723-000249-ONMECE6.txt".data).1⟩

theorem c6_zero_elapsed_tick_witness :
    TicksPerSecondWatcher.call
        { smoothing_factor := 10, ticks := 3, last_time := 7, last_ticks := 2,
          ticks_per_second := 5, smoothing_history := [5] } 7 =
      ({ smoothing_factor := 10, ticks := 4, last_time := 7, last_ticks := 2,
         ticks_per_second := 5, smoothing_history := [5] }, 5) :=
  c6_zero_elapsed_tick
    { smoothing_factor := 10, ticks := 3, last_time := 7, last_ticks := 2,
      ticks_per_second := 5, smoothing_history := [5] } 7 (by norm_num)
